import Mathlib

/-! Verification of the apollo-gatherer pipeline: a shallow embedding of
`apollo_gatherer/api.py` (transport retry loop and paginator) and
`apollo_gatherer/cli.py` (record extraction, dedup/seen-set management,
CSV export and the `main` orchestration), with theorems about the
behavioural claims of the specification.

Python strings are modelled as `List Char`.  `str.strip()` is modelled on
the ASCII whitespace characters it removes, `str.lower()` on the ASCII
case mapping (`Char.toLower`), and `str.splitlines()` on the full set of
line-boundary characters Python recognises, with `read_text`'s
universal-newline translation applied before splitting when the seen file
is loaded.
-/

namespace ApolloGatherer

/-- Python strings, modelled as lists of characters. -/
abbrev Str := List Char

/-- The ASCII whitespace characters removed by Python's `str.strip()`:
space, tab, newline, carriage return, vertical tab and form feed. -/
def isPySpace (c : Char) : Bool :=
  c.toNat == 32 || c.toNat == 9 || c.toNat == 10 || c.toNat == 13 ||
    c.toNat == 11 || c.toNat == 12

/-- Python `str.strip()`: drop leading and trailing whitespace. -/
def pyStrip (s : Str) : Str :=
  ((s.dropWhile isPySpace).reverse.dropWhile isPySpace).reverse

/-- Python `str.lower()` (ASCII case mapping). -/
def pyLower (s : Str) : Str :=
  s.map Char.toLower

/-- The normal form `email.strip().lower()` used by the dedup logic. -/
def normEmail (s : Str) : Str :=
  pyLower (pyStrip s)

/-- Boolean lexicographic comparison of strings by code point, matching the
order Python's `sorted` uses on strings. -/
def strLeB : Str → Str → Bool
  | [], _ => true
  | _ :: _, [] => false
  | a :: s, b :: t =>
    if a.toNat < b.toNat then true
    else if b.toNat < a.toNat then false
    else strLeB s t

/-- The propositional form of `strLeB`. -/
def strLe (a b : Str) : Prop := strLeB a b = true

instance : DecidableRel strLe := fun a b => instDecidableEqBool (strLeB a b) true

/-- Characters are equal when their code points are. -/
lemma char_eq_of_toNat_eq {c d : Char} (h : c.toNat = d.toNat) : c = d :=
  Char.ext (UInt32.ext h)

lemma strLeB_cons_cons (a b : Char) (s t : Str) :
    strLeB (a :: s) (b :: t) =
      if a.toNat < b.toNat then true
      else if b.toNat < a.toNat then false
      else strLeB s t := rfl

instance : IsTotal Str strLe where
  total := by
    intro a
    induction a with
    | nil => intro b; exact Or.inl rfl
    | cons c s ih =>
      intro b
      cases b with
      | nil => exact Or.inr rfl
      | cons d t =>
        by_cases h1 : c.toNat < d.toNat
        · exact Or.inl (by unfold strLe; rw [strLeB_cons_cons, if_pos h1])
        · by_cases h2 : d.toNat < c.toNat
          · exact Or.inr (by unfold strLe; rw [strLeB_cons_cons, if_pos h2])
          · rcases ih t with h3 | h3
            · refine Or.inl ?_
              unfold strLe
              rw [strLeB_cons_cons, if_neg h1, if_neg h2]
              exact h3
            · refine Or.inr ?_
              unfold strLe
              rw [strLeB_cons_cons, if_neg h2, if_neg h1]
              exact h3

instance : IsTrans Str strLe where
  trans := by
    intro a
    induction a with
    | nil => intro b c _ _; exact rfl
    | cons x s ih =>
      intro b c hab hbc
      cases b with
      | nil => exact absurd hab (by unfold strLe strLeB; decide)
      | cons y t =>
        cases c with
        | nil => exact absurd hbc (by unfold strLe strLeB; decide)
        | cons z u =>
          unfold strLe at hab hbc ⊢
          rw [strLeB_cons_cons] at hab hbc ⊢
          by_cases h1 : x.toNat < y.toNat
          · by_cases h2 : y.toNat < z.toNat
            · rw [if_pos (by omega)]
            · by_cases h2' : z.toNat < y.toNat
              · rw [if_neg h2, if_pos h2'] at hbc
                exact absurd hbc (by decide)
              · rw [if_pos (by omega)]
          · by_cases h1' : y.toNat < x.toNat
            · rw [if_neg h1, if_pos h1'] at hab
              exact absurd hab (by decide)
            · by_cases h2 : y.toNat < z.toNat
              · rw [if_pos (by omega)]
              · by_cases h2' : z.toNat < y.toNat
                · rw [if_neg h2, if_pos h2'] at hbc
                  exact absurd hbc (by decide)
                · rw [if_neg h1, if_neg h1'] at hab
                  rw [if_neg h2, if_neg h2'] at hbc
                  rw [if_neg (by omega), if_neg (by omega)]
                  exact ih t u hab hbc

instance : IsAntisymm Str strLe where
  antisymm := by
    intro a
    induction a with
    | nil =>
      intro b _ hba
      cases b with
      | nil => rfl
      | cons y t => exact absurd hba (by unfold strLe strLeB; decide)
    | cons x s ih =>
      intro b hab hba
      cases b with
      | nil => exact absurd hab (by unfold strLe strLeB; decide)
      | cons y t =>
        unfold strLe at hab hba
        rw [strLeB_cons_cons] at hab hba
        by_cases h1 : x.toNat < y.toNat
        · rw [if_neg (by omega), if_pos h1] at hba
          exact absurd hba (by decide)
        · by_cases h2 : y.toNat < x.toNat
          · rw [if_neg h1, if_pos h2] at hab
            exact absurd hab (by decide)
          · rw [if_neg h1, if_neg h2] at hab
            rw [if_neg h2, if_neg h1] at hba
            have hxy : x = y := char_eq_of_toNat_eq (by omega)
            rw [hxy, ih t hab hba]

/-- The line-boundary characters recognised by Python's `str.splitlines()`:
line feed, carriage return, vertical tab, form feed, the file/group/record
separators, next line, and the Unicode line and paragraph separators
(`"\r\n"` additionally counts as one boundary, handled in `pySplitlines`). -/
def isPyLineBoundary (c : Char) : Bool :=
  c.toNat == 10 || c.toNat == 13 || c.toNat == 11 || c.toNat == 12 ||
    c.toNat == 28 || c.toNat == 29 || c.toNat == 30 || c.toNat == 133 ||
    c.toNat == 8232 || c.toNat == 8233

/-- Python `str.splitlines()`: cut the string at every line boundary, with
`"\r\n"` counting as a single boundary; a trailing boundary does not
produce a final empty line and the empty string has no lines. -/
def pySplitlines : Str → List Str
  | [] => []
  | [c] => if isPyLineBoundary c then [[]] else [[c]]
  | c :: d :: rest =>
    if c = '\r' then
      if d = '\n' then [] :: pySplitlines rest
      else [] :: pySplitlines (d :: rest)
    else if isPyLineBoundary c then [] :: pySplitlines (d :: rest)
    else
      match pySplitlines (d :: rest) with
      | [] => [[c]]
      | l :: ls => (c :: l) :: ls

/-- The universal-newline translation `Path.read_text` applies when opening
the seen file in text mode (`newline=None`): every `"\r\n"` and every lone
`"\r"` in the file becomes `"\n"`. -/
def universalNewlines : Str → Str
  | [] => []
  | [c] => if c = '\r' then ['\n'] else [c]
  | c :: d :: rest =>
    if c = '\r' then
      if d = '\n' then '\n' :: universalNewlines rest
      else '\n' :: universalNewlines (d :: rest)
    else c :: universalNewlines (d :: rest)

/-- Evaluating `Char.ofNat` on a valid code point recovers the code point. -/
lemma char_toNat_ofNat {n : Nat} (h : n.isValidChar) : (Char.ofNat n).toNat = n := by
  simp [Char.ofNat, h, Char.ofNatAux, Char.toNat, UInt32.toNat]

/-- Characters outside the ASCII upper-case range are fixed by `Char.toLower`. -/
lemma toLower_eq_self {c : Char} (h : ¬(c.toNat ≥ 65 ∧ c.toNat ≤ 90)) :
    Char.toLower c = c := by
  show (if c.toNat ≥ 65 ∧ c.toNat ≤ 90 then Char.ofNat (c.toNat + 32) else c) = c
  exact if_neg h

/-- ASCII upper-case characters are shifted by 32 by `Char.toLower`. -/
lemma toLower_toNat_of_upper {c : Char} (h : c.toNat ≥ 65 ∧ c.toNat ≤ 90) :
    (Char.toLower c).toNat = c.toNat + 32 := by
  have h1 : Char.toLower c = Char.ofNat (c.toNat + 32) := by
    show (if c.toNat ≥ 65 ∧ c.toNat ≤ 90 then Char.ofNat (c.toNat + 32) else c) =
      Char.ofNat (c.toNat + 32)
    exact if_pos h
  rw [h1]
  exact char_toNat_ofNat (Or.inl (by omega))

/-- Lower-casing is idempotent on characters. -/
lemma toLower_toLower (c : Char) : Char.toLower (Char.toLower c) = Char.toLower c := by
  by_cases h : c.toNat ≥ 65 ∧ c.toNat ≤ 90
  · have h1 := toLower_toNat_of_upper h
    exact toLower_eq_self (by omega)
  · rw [toLower_eq_self h]
    exact toLower_eq_self h

/-- Lower-casing does not create or destroy whitespace. -/
lemma isPySpace_toLower (c : Char) : isPySpace (Char.toLower c) = isPySpace c := by
  by_cases h : c.toNat ≥ 65 ∧ c.toNat ≤ 90
  · have h1 := toLower_toNat_of_upper h
    have l : isPySpace (Char.toLower c) = false := by
      simp [isPySpace, h1]
      omega
    have r : isPySpace c = false := by
      simp [isPySpace]
      omega
    rw [l, r]
  · rw [toLower_eq_self h]

/-- Lower-casing does not create or destroy line boundaries. -/
lemma isPyLineBoundary_toLower (c : Char) :
    isPyLineBoundary (Char.toLower c) = isPyLineBoundary c := by
  by_cases h : c.toNat ≥ 65 ∧ c.toNat ≤ 90
  · have h1 := toLower_toNat_of_upper h
    have l : isPyLineBoundary (Char.toLower c) = false := by
      simp [isPyLineBoundary, h1]
      omega
    have r : isPyLineBoundary c = false := by
      simp [isPyLineBoundary]
      omega
    rw [l, r]
  · rw [toLower_eq_self h]

lemma dropWhile_idem (p : Char → Bool) (l : Str) :
    (l.dropWhile p).dropWhile p = l.dropWhile p := by
  induction l with
  | nil => rfl
  | cons c t ih =>
    by_cases h : p c
    · simp [List.dropWhile_cons, h, ih]
    · simp [List.dropWhile_cons, h]

lemma dropWhile_head_false {p : Char → Bool} {l : Str} {c : Char} {t : Str}
    (h : l.dropWhile p = c :: t) : p c = false := by
  induction l with
  | nil => simp at h
  | cons a s ih =>
    by_cases ha : p a
    · rw [List.dropWhile_cons, if_pos ha] at h
      exact ih h
    · rw [List.dropWhile_cons, if_neg ha] at h
      cases h
      exact Bool.not_eq_true _ ▸ (by simpa using ha)

/-- The result of `dropWhile` is a suffix of the input. -/
lemma dropWhile_suffix (p : Char → Bool) (l : Str) : ∃ w, w ++ l.dropWhile p = l := by
  induction l with
  | nil => exact ⟨[], rfl⟩
  | cons a s ih =>
    by_cases ha : p a
    · obtain ⟨w, hw⟩ := ih
      exact ⟨a :: w, by simp [List.dropWhile_cons, ha, hw]⟩
    · exact ⟨[], by simp [List.dropWhile_cons, ha]⟩

lemma mem_of_mem_dropWhile {p : Char → Bool} {l : Str} {c : Char}
    (h : c ∈ l.dropWhile p) : c ∈ l := by
  obtain ⟨w, hw⟩ := dropWhile_suffix p l
  rw [← hw]
  exact List.mem_append_right w h

/-- A stripped string has no leading whitespace. -/
lemma pyStrip_no_leading (s : Str) : (pyStrip s).dropWhile isPySpace = pyStrip s := by
  unfold pyStrip
  cases hvr : ((s.dropWhile isPySpace).reverse.dropWhile isPySpace).reverse with
  | nil => rfl
  | cons a w =>
    obtain ⟨pre, hpre⟩ :=
      dropWhile_suffix isPySpace (s.dropWhile isPySpace).reverse
    have hv : (s.dropWhile isPySpace).reverse.dropWhile isPySpace = (a :: w).reverse := by
      have h0 := congrArg List.reverse hvr
      rwa [List.reverse_reverse] at h0
    have hu : s.dropWhile isPySpace = (pre ++ (a :: w).reverse).reverse := by
      rw [← hv, hpre, List.reverse_reverse]
    have ht : s.dropWhile isPySpace = a :: (w ++ pre.reverse) := by
      rw [hu]
      simp
    have ha : isPySpace a = false := dropWhile_head_false ht
    simp [List.dropWhile_cons, ha]

/-- A stripped string has no trailing whitespace. -/
lemma pyStrip_reverse_no_leading (s : Str) :
    (pyStrip s).reverse.dropWhile isPySpace = (pyStrip s).reverse := by
  unfold pyStrip
  rw [List.reverse_reverse]
  exact dropWhile_idem _ _

/-- A string with no surrounding whitespace is fixed by stripping. -/
lemma pyStrip_eq_self {t : Str} (h1 : t.dropWhile isPySpace = t)
    (h2 : t.reverse.dropWhile isPySpace = t.reverse) : pyStrip t = t := by
  unfold pyStrip
  rw [h1, h2, List.reverse_reverse]

/-- Stripping is idempotent. -/
lemma pyStrip_idem (s : Str) : pyStrip (pyStrip s) = pyStrip s :=
  pyStrip_eq_self (pyStrip_no_leading s) (pyStrip_reverse_no_leading s)

/-- Appending trailing whitespace does not change the stripped value. -/
lemma pyStrip_append_space (t : Str) (c : Char) (hc : isPySpace c = true) :
    pyStrip (t ++ [c]) = pyStrip t := by
  unfold pyStrip
  rw [List.dropWhile_append]
  by_cases h : (t.dropWhile isPySpace).isEmpty
  · rw [if_pos h]
    have ht : t.dropWhile isPySpace = [] := by
      cases hcase : t.dropWhile isPySpace
      · rfl
      · rw [hcase] at h; simp at h
    rw [ht]
    simp [List.dropWhile_cons, hc]
  · rw [if_neg h]
    rw [List.reverse_append]
    simp only [List.reverse_cons, List.reverse_nil, List.nil_append]
    rw [List.singleton_append, List.dropWhile_cons, hc]
    simp

/-- Prepending leading whitespace does not change the stripped value. -/
lemma pyStrip_cons_space (t : Str) (c : Char) (hc : isPySpace c = true) :
    pyStrip (c :: t) = pyStrip t := by
  unfold pyStrip
  rw [List.dropWhile_cons, if_pos hc]

/-- Stripping commutes with lower-casing. -/
lemma pyStrip_pyLower (s : Str) : pyStrip (pyLower s) = pyLower (pyStrip s) := by
  have hcomp : (isPySpace ∘ Char.toLower) = isPySpace := by
    funext c
    exact isPySpace_toLower c
  unfold pyStrip pyLower
  rw [List.dropWhile_map, hcomp, ← List.map_reverse, List.dropWhile_map, hcomp,
    ← List.map_reverse]

/-- Lower-casing is idempotent on strings. -/
lemma pyLower_idem (s : Str) : pyLower (pyLower s) = pyLower s := by
  unfold pyLower
  rw [List.map_map]
  exact List.map_congr_left fun c _ => toLower_toLower c

/-- The dedup normal form is idempotent. -/
lemma normEmail_idem (s : Str) : normEmail (normEmail s) = normEmail s := by
  unfold normEmail
  rw [pyStrip_pyLower, pyStrip_idem, pyLower_idem]

/-- Normalising cannot introduce a line-boundary character. -/
lemma normEmail_boundary_free {s : Str}
    (h : ∀ ch ∈ s, isPyLineBoundary ch = false) :
    ∀ ch ∈ normEmail s, isPyLineBoundary ch = false := by
  intro ch hch
  unfold normEmail pyLower at hch
  rw [List.mem_map] at hch
  obtain ⟨c, hc, hlc⟩ := hch
  have hcs : c ∈ s := by
    unfold pyStrip at hc
    rw [List.mem_reverse] at hc
    have h1 := mem_of_mem_dropWhile hc
    rw [List.mem_reverse] at h1
    exact mem_of_mem_dropWhile h1
  rw [← hlc, isPyLineBoundary_toLower]
  exact h c hcs

/-- Unfolding `pySplitlines` at a boundary character other than a carriage
return. -/
lemma pySplitlines_cons_boundary (c : Char) (rest : Str) (hc : c ≠ '\r')
    (hb : isPyLineBoundary c = true) :
    pySplitlines (c :: rest) = [] :: pySplitlines rest := by
  cases rest with
  | nil => simp [pySplitlines, hb]
  | cons d rest2 => simp [pySplitlines, hc, hb]

/-- Unfolding `pySplitlines` at an ordinary (non-boundary) character. -/
lemma pySplitlines_cons_text (c : Char) (rest : Str) (hc : c ≠ '\r')
    (hb : isPyLineBoundary c = false) :
    pySplitlines (c :: rest) =
      (match pySplitlines rest with
       | [] => [[c]]
       | l :: ls => (c :: l) :: ls) := by
  cases rest with
  | nil => simp [pySplitlines, hb]
  | cons d rest2 => simp [pySplitlines, hc, hb]

/-- Unfolding `universalNewlines` at a character other than a carriage
return. -/
lemma universalNewlines_cons (c : Char) (rest : Str) (hc : c ≠ '\r') :
    universalNewlines (c :: rest) = c :: universalNewlines rest := by
  cases rest with
  | nil => simp [universalNewlines, hc]
  | cons d rest2 => simp [universalNewlines, hc]

/-- Universal-newline translation is the identity on strings without a
carriage return. -/
lemma universalNewlines_eq_self {s : Str} (h : '\r' ∉ s) :
    universalNewlines s = s := by
  induction s with
  | nil => rfl
  | cons c rest ih =>
    have hc : c ≠ '\r' := fun hcc => h (hcc ▸ List.mem_cons_self c rest)
    rw [universalNewlines_cons c rest hc,
      ih (fun hm => h (List.mem_cons_of_mem c hm))]

/-- No character of any piece produced by `pySplitlines` is a line
boundary (length-bounded induction). -/
lemma pySplitlines_pieces_aux :
    ∀ (n : Nat) (s : Str), s.length ≤ n →
      ∀ l ∈ pySplitlines s, ∀ ch ∈ l, isPyLineBoundary ch = false := by
  intro n
  induction n with
  | zero =>
    intro s hs l hl
    rw [List.length_eq_zero.mp (Nat.le_zero.mp hs)] at hl
    simp [pySplitlines] at hl
  | succ n ih =>
    intro s hs l hl ch hch
    cases s with
    | nil => simp [pySplitlines] at hl
    | cons c rest =>
      cases rest with
      | nil =>
        by_cases hb : isPyLineBoundary c
        · simp [pySplitlines, hb] at hl
          subst hl
          simp at hch
        · simp [pySplitlines, hb] at hl
          subst hl
          rw [List.mem_singleton.mp hch]
          simpa using hb
      | cons d rest2 =>
        have hlen2 : rest2.length ≤ n := by
          simp at hs
          omega
        have hlen1 : (d :: rest2).length ≤ n := by
          simp at hs ⊢
          omega
        by_cases hc : c = '\r'
        · by_cases hd : d = '\n'
          · simp only [pySplitlines, hc, hd, if_pos rfl] at hl
            rcases List.mem_cons.mp hl with h | h
            · subst h
              simp at hch
            · exact ih rest2 hlen2 l h ch hch
          · rw [show pySplitlines (c :: d :: rest2) = [] :: pySplitlines (d :: rest2) by
              simp [pySplitlines, hc, hd]] at hl
            rcases List.mem_cons.mp hl with h | h
            · subst h
              simp at hch
            · exact ih (d :: rest2) hlen1 l h ch hch
        · by_cases hb : isPyLineBoundary c
          · rw [pySplitlines_cons_boundary c (d :: rest2) hc hb] at hl
            rcases List.mem_cons.mp hl with h | h
            · subst h
              simp at hch
            · exact ih (d :: rest2) hlen1 l h ch hch
          · rw [pySplitlines_cons_text c (d :: rest2) hc (by simpa using hb)] at hl
            cases hm : pySplitlines (d :: rest2) with
            | nil =>
              rw [hm] at hl
              simp only [List.mem_singleton] at hl
              subst hl
              rw [List.mem_singleton.mp hch]
              simpa using hb
            | cons l' ls =>
              rw [hm] at hl
              rcases List.mem_cons.mp hl with h | h
              · subst h
                rcases List.mem_cons.mp hch with h' | h'
                · rw [h']
                  simpa using hb
                · exact ih (d :: rest2) hlen1 l' (hm ▸ List.mem_cons_self l' ls) ch h'
              · exact ih (d :: rest2) hlen1 l (hm ▸ List.mem_cons_of_mem l' h) ch hch

/-- Pieces of `pySplitlines` contain no line-boundary character. -/
lemma pieces_of_pySplitlines {s l : Str} (hl : l ∈ pySplitlines s) :
    ∀ ch ∈ l, isPyLineBoundary ch = false :=
  pySplitlines_pieces_aux s.length s (le_refl _) l hl

lemma intercalate_singleton (sep a : Str) : List.intercalate sep [a] = a := by
  simp [List.intercalate, List.intersperse]

lemma intercalate_cons_cons (sep a b : Str) (l : List Str) :
    List.intercalate sep (a :: b :: l) = a ++ sep ++ List.intercalate sep (b :: l) := by
  simp [List.intercalate, List.intersperse]

/-- A boundary-free line followed by a newline is split off as one piece. -/
lemma pySplitlines_line {l : Str} (hb : ∀ ch ∈ l, isPyLineBoundary ch = false)
    (rest : Str) :
    pySplitlines (l ++ '\n' :: rest) = l :: pySplitlines rest := by
  induction l with
  | nil =>
    rw [List.nil_append]
    exact pySplitlines_cons_boundary '\n' rest (by decide) (by decide)
  | cons c l ih =>
    have hc0 := hb c (List.mem_cons_self c l)
    have hcr : c ≠ '\r' := by
      intro hcc
      rw [hcc] at hc0
      exact absurd hc0 (by decide)
    rw [List.cons_append, pySplitlines_cons_text c (l ++ '\n' :: rest) hcr hc0,
      ih (fun ch hch => hb ch (List.mem_cons_of_mem c hch))]

/-- Splitting the persisted layout (boundary-free lines joined by newlines,
plus a trailing newline) recovers the lines. -/
lemma pySplitlines_roundtrip (L : List Str) (hL : L ≠ [])
    (hb : ∀ l ∈ L, ∀ ch ∈ l, isPyLineBoundary ch = false) :
    pySplitlines (List.intercalate ['\n'] L ++ ['\n']) = L := by
  induction L with
  | nil => exact absurd rfl hL
  | cons x L ih =>
    cases L with
    | nil =>
      rw [intercalate_singleton]
      simpa using pySplitlines_line (hb x (List.mem_cons_self x [])) []
    | cons y L' =>
      rw [intercalate_cons_cons]
      have hassoc : x ++ ['\n'] ++ List.intercalate ['\n'] (y :: L') ++ ['\n'] =
          x ++ '\n' :: (List.intercalate ['\n'] (y :: L') ++ ['\n']) := by
        simp [List.append_assoc]
      rw [hassoc, pySplitlines_line (hb x (List.mem_cons_self x (y :: L'))),
        ih (by simp) (fun l hl => hb l (List.mem_cons_of_mem x hl))]

/-- A character of an intercalation comes from the separator or from one of
the pieces. -/
lemma mem_intercalate_elem {ch : Char} {sep : Str} {L : List Str}
    (h : ch ∈ List.intercalate sep L) : ch ∈ sep ∨ ∃ l ∈ L, ch ∈ l := by
  induction L with
  | nil =>
    simp [List.intercalate, List.intersperse] at h
  | cons x L ih =>
    cases L with
    | nil =>
      rw [intercalate_singleton] at h
      exact Or.inr ⟨x, List.mem_cons_self x [], h⟩
    | cons y L' =>
      rw [intercalate_cons_cons] at h
      simp only [List.mem_append, or_assoc] at h
      rcases h with h | h | h
      · exact Or.inr ⟨x, List.mem_cons_self _ _, h⟩
      · exact Or.inl h
      · rcases ih h with h' | ⟨l, hl, hcl⟩
        · exact Or.inl h'
        · exact Or.inr ⟨l, List.mem_cons_of_mem _ hl, hcl⟩

/-! The dedup/seen-set manager of `cli.py`.

`_load_seen_emails` takes the content of the seen-emails file (`none` models
a missing or unreadable file, which Python maps to the empty set), and
`_save_seen_emails` returns the content that `path.write_text` persists. -/

/-- The `_load_seen_emails` function of `cli.py`: read the file with
`read_text` (which applies the universal-newline translation), split it
into lines, normalise each line with `line.strip().lower()`, and keep the
non-empty values as a set. -/
def _load_seen_emails : Option Str → Finset Str
  | none => ∅
  | some raw =>
    (((pySplitlines (universalNewlines raw)).map normEmail).filter
      (fun v => v ≠ [])).toFinset

/-- Python's `sorted` on a multiset of strings (code-point order).  The
underlying algorithm is insertion sort, which is structurally recursive, so
concrete instances evaluate inside the kernel; sortedness plus permutation
determines the output uniquely, so the choice of algorithm is irrelevant. -/
def pySorted (s : Multiset Str) : List Str :=
  Quot.liftOn s (fun l => l.insertionSort strLe) fun _ _ h =>
    List.eq_of_perm_of_sorted
      ((List.perm_insertionSort _ _).trans (h.trans (List.perm_insertionSort _ _).symm))
      (List.sorted_insertionSort _ _) (List.sorted_insertionSort _ _)

lemma pySorted_coe_eq (s : Multiset Str) : (pySorted s : Multiset Str) = s :=
  Quot.inductionOn s fun _ => Quot.sound (List.perm_insertionSort _ _)

lemma pySorted_sorted (s : Multiset Str) : List.Sorted strLe (pySorted s) :=
  Quot.inductionOn s fun _ => List.sorted_insertionSort _ _

/-- The `_save_seen_emails` function of `cli.py`: the written file content is
`"\n".join(sorted(email.strip().lower() for email in emails if email))`
plus a trailing newline when at least one email is written. -/
def _save_seen_emails (emails : Finset Str) : Str :=
  let sorted_emails := pySorted ((emails.val.filter (fun e => e ≠ [])).map normEmail)
  List.intercalate ['\n'] sorted_emails ++
    (if sorted_emails = [] then [] else ['\n'])

/-- Entries of a loaded seen set are non-empty, in dedup normal form, and
contain no line-boundary character. -/
lemma load_entries {c : Option Str} {e : Str} (he : e ∈ _load_seen_emails c) :
    e ≠ [] ∧ normEmail e = e ∧ ∀ ch ∈ e, isPyLineBoundary ch = false := by
  cases c with
  | none => simp [_load_seen_emails] at he
  | some content =>
    unfold _load_seen_emails at he
    rw [List.mem_toFinset, List.mem_filter] at he
    obtain ⟨hmem, hne⟩ := he
    rw [List.mem_map] at hmem
    obtain ⟨line, hline, hrfl⟩ := hmem
    subst hrfl
    refine ⟨by simpa using hne, normEmail_idem line, ?_⟩
    exact normEmail_boundary_free (pieces_of_pySplitlines hline)

/-- On a set whose members are non-empty and in normal form, the list of
lines written by `_save_seen_emails` is exactly the set, sorted. -/
lemma save_lines_eq {S : Finset Str} (h : ∀ e ∈ S, e ≠ [] ∧ normEmail e = e) :
    (pySorted ((S.val.filter (fun e => e ≠ [])).map normEmail)
      : Multiset Str) = S.val := by
  have hfilter : S.val.filter (fun e => e ≠ []) = S.val :=
    Multiset.filter_eq_self.mpr fun e he => (h e he).1
  have hmap : (S.val.filter (fun e => e ≠ [])).map normEmail = S.val := by
    rw [hfilter]
    calc S.val.map normEmail = S.val.map id :=
          Multiset.map_congr rfl fun e he => (h e he).2
      _ = S.val := Multiset.map_id S.val
  rw [hmap, pySorted_coe_eq]

/-- Saving a set of non-empty, normalised, boundary-free emails and loading
it back yields the same set. -/
lemma load_save {S : Finset Str}
    (h : ∀ e ∈ S, e ≠ [] ∧ normEmail e = e ∧ ∀ ch ∈ e, isPyLineBoundary ch = false) :
    _load_seen_emails (some (_save_seen_emails S)) = S := by
  have hlines : (pySorted ((S.val.filter (fun e => e ≠ [])).map normEmail)
      : Multiset Str) = S.val := save_lines_eq fun e he => ⟨(h e he).1, (h e he).2.1⟩
  by_cases hS : S = ∅
  · subst hS
    decide
  · have hnonempty : pySorted
        ((S.val.filter (fun e => e ≠ [])).map normEmail) ≠ [] := by
      intro hnil
      apply hS
      have hz : (S.val : Multiset Str) = 0 := by
        rw [← hlines, hnil]
        simp
      exact Finset.val_eq_zero.mp hz
    have hmemL : ∀ e, e ∈ pySorted
        ((S.val.filter (fun e => e ≠ [])).map normEmail) ↔ e ∈ S := by
      intro e
      rw [← Multiset.mem_coe, hlines]
      exact Iff.rfl
    have hmapid : (pySorted
        ((S.val.filter (fun e => e ≠ [])).map normEmail)).map normEmail =
        pySorted ((S.val.filter (fun e => e ≠ [])).map normEmail) := by
      have h1 : (pySorted ((S.val.filter (fun e => e ≠ [])).map normEmail)).map normEmail =
          (pySorted ((S.val.filter (fun e => e ≠ [])).map normEmail)).map id :=
        List.map_congr_left fun e he => (h e ((hmemL e).mp he)).2.1
      rw [h1, List.map_id]
    have hnoCR : '\r' ∉ List.intercalate ['\n']
        (pySorted ((S.val.filter (fun e => e ≠ [])).map normEmail)) ++ ['\n'] := by
      intro hmem
      rcases List.mem_append.mp hmem with h1 | h1
      · rcases mem_intercalate_elem h1 with h2 | ⟨l, hl, hcl⟩
        · rw [List.mem_singleton] at h2
          exact absurd h2 (by decide)
        · exact absurd ((h l ((hmemL l).mp hl)).2.2 '\r' hcl) (by decide)
      · rw [List.mem_singleton] at h1
        exact absurd h1 (by decide)
    unfold _save_seen_emails
    simp only [if_neg hnonempty]
    simp only [_load_seen_emails]
    rw [universalNewlines_eq_self hnoCR]
    rw [pySplitlines_roundtrip _ hnonempty (fun l hl => (h l ((hmemL l).mp hl)).2.2)]
    rw [hmapid]
    rw [List.filter_eq_self.mpr fun e he => by simpa using (h e ((hmemL e).mp he)).1]
    apply Finset.ext
    intro e
    rw [List.mem_toFinset]
    exact hmemL e

/-! Raw provider records and normalised output records. -/

/-- A raw person record as returned by the provider.  Each field models the
corresponding `person.get(...)` lookup in `cli.py`; `none` means the key is
absent. -/
structure Person where
  email : Option Str
  primary_email : Option Str
  first_name : Option Str
  last_name : Option Str
  title : Option Str
  organization_name : Option Str
  organization_nested_name : Option Str
deriving DecidableEq

/-- A normalised output record with the four exported fields. -/
structure Record where
  name : Str
  role : Str
  email : Str
  company : Option Str
deriving DecidableEq

/-- Python's `a or b` on optional strings: `a` unless `a` is `None` or empty. -/
def pyOr (a b : Option Str) : Option Str :=
  match a with
  | some s => if s = [] then b else some s
  | none => b

/-- The `_compose_name` function of `cli.py`:
`f"{first.strip()} {last.strip()}".strip()` with missing names read as `""`. -/
def _compose_name (p : Person) : Str :=
  pyStrip (pyStrip (p.first_name.getD []) ++ ' ' :: pyStrip (p.last_name.getD []))

/-- The raw email chosen by `_gather_people_records`:
`person.get("email") or person.get("primary_email")`. -/
def rawEmail (p : Person) : Option Str :=
  pyOr p.email p.primary_email

/-- The record dict appended to `results` in `_gather_people_records`. -/
def makeRecord (p : Person) (email : Str) : Record where
  name := _compose_name p
  role := p.title.getD []
  email := email
  company := pyOr p.organization_name p.organization_nested_name

/-- The failure modes of the transport (`ApolloError` carriers in `api.py`). -/
inductive ApolloFailure where
  | transport
  | rateLimit
  | apiError (status : Nat)
  | nonJson
deriving DecidableEq

/-- Test `len(results) >= max_contacts` when a maximum is configured. -/
def atMax (maxContacts : Option Nat) (n : Nat) : Bool :=
  match maxContacts with
  | some m => n ≥ m
  | none => false

/-- The record-consuming loop of `_gather_people_records` in `cli.py`.

The lazy stream produced by `search_people` is modelled as the list of
person records it yields, together with an optional `ApolloError` that the
generator raises after the last yielded record (`err = none` models a stream
that ends normally).  An error reaching the loop is re-raised as
`SystemExit`, modelled by the `Except.error` result. -/
def gatherGo (maxContacts : Option Nat) (err : Option ApolloFailure) :
    List Person → Finset Str → Finset Str → List Record →
    Except ApolloFailure (List Record × Finset Str)
  | [], _, newly, results =>
    match err with
    | some e => .error e
    | none => .ok (results, newly)
  | p :: rest, seen, newly, results =>
    match rawEmail p with
    | none => gatherGo maxContacts err rest seen newly results
    | some email =>
      if email = [] then gatherGo maxContacts err rest seen newly results
      else
        let normalized_email := normEmail email
        if normalized_email = [] ∨ normalized_email ∈ seen then
          gatherGo maxContacts err rest seen newly results
        else
          let results' := results ++ [makeRecord p email]
          if atMax maxContacts results'.length then
            .ok (results', insert normalized_email newly)
          else
            gatherGo maxContacts err rest (insert normalized_email seen)
              (insert normalized_email newly) results'

/-- The `_gather_people_records` function of `cli.py`: re-normalise the
previously seen set, then fold the yielded records through the dedup loop. -/
def _gather_people_records (people : List Person) (err : Option ApolloFailure)
    (maxContacts : Option Nat) (already_seen : Finset Str) :
    Except ApolloFailure (List Record × Finset Str) :=
  gatherGo maxContacts err people
    ((already_seen.filter (fun e => e ≠ [])).image normEmail) ∅ []

/-- The fixed CSV column order of `_write_csv`. -/
def csvHeader : List Str :=
  ["name".data, "role".data, "email".data, "company".data]

/-- One CSV data row: the four record fields in header order (a missing
company is written as the empty string, as `csv.DictWriter` does). -/
def csvRow (r : Record) : List Str :=
  [r.name, r.role, r.email, r.company.getD []]

/-- The `_write_csv` function of `cli.py`, at the level of rows and fields:
a header row followed by one row per record in order. -/
def _write_csv (records : List Record) : List (List Str) :=
  csvHeader :: records.map csvRow

/-- The externally visible effects of one `main` run: whether the run
aborted, the rows written to the output CSV (`none` when not written), and
the content written to the seen-emails file (`none` when not written). -/
structure RunOutcome where
  aborted : Bool
  csvWritten : Option (List (List Str))
  seenWritten : Option Str
deriving DecidableEq

/-- The tail of `main` in `cli.py`: load the seen file, gather records,
then (unless the gather aborted with `SystemExit`) write the CSV and, only
when new emails were found, persist the union of old and new seen emails. -/
def mainRun (seenFileContent : Option Str) (people : List Person)
    (err : Option ApolloFailure) (maxContacts : Option Nat) : RunOutcome :=
  let seen_emails_existing := _load_seen_emails seenFileContent
  match _gather_people_records people err maxContacts seen_emails_existing with
  | .error _ => ⟨true, none, none⟩
  | .ok (records, newly_seen) =>
    ⟨false, some (_write_csv records),
      if newly_seen ≠ ∅ then
        some (_save_seen_emails (seen_emails_existing ∪ newly_seen))
      else none⟩

/-! The paginator `ApolloClient.search_people` of `api.py`. -/

/-- The `_to_list` helper of `api.py`: strip each value and drop the empty
ones (`None` yields the empty list). -/
def _to_list (values : Option (List Str)) : List Str :=
  match values with
  | none => []
  | some vs => (vs.map pyStrip).filter (fun v => v ≠ [])

/-- The filter payload `payload_base` built at the top of `search_people`
(the per-page `api_key`/`page`/`per_page` fields are added per request and
are part of the page index of the transport function below). -/
structure Payload where
  person_titles : Option (List Str)
  person_locations : Option (List Str)
  organization_names : Option (List Str)
deriving DecidableEq

/-- Build `payload_base` exactly as `search_people` does: each key is set
only when its value is truthy. -/
def payload_base (job_titles company_names : Option (List Str))
    (country : Option Str) : Payload where
  person_titles :=
    let titles := _to_list job_titles
    if titles = [] then none else some titles
  person_locations :=
    match country with
    | some c => if c = [] then none else some [c]
    | none => none
  organization_names :=
    let organizations := _to_list company_names
    if organizations = [] then none else some organizations

/-- One parsed page response: the `people` array and the
`pagination.total_pages` hint (`none` when the provider omits it). -/
structure SearchResponse where
  people : List Person
  total_pages : Option Nat
deriving DecidableEq

/-- The observable behaviour of one paginator run: which pages were
requested (in order), which records were yielded (in order), and whether
the loop exited by itself (`false` only when the fuel ran out before the
loop stopped). -/
structure PaginationResult where
  requested : List Nat
  yielded : List Person
  finished : Bool
deriving DecidableEq

/-- Test `max_pages is not None and page > max_pages`. -/
def atCap (maxPages : Option Nat) (page : Nat) : Bool :=
  match maxPages with
  | some m => page > m
  | none => false

/-- Test `total_pages is not None and page >= total_pages`. -/
def stopByTotal (total_pages : Option Nat) (page : Nat) : Bool :=
  match total_pages with
  | some tp => page ≥ tp
  | none => false

/-- The `while True` pagination loop of `search_people`.  `fetch page` is
the parsed JSON response the transport returns for the request carrying the
(fixed) filter payload and this page number.  `fuel` bounds the number of
iterations so that the function is total; a run with `finished = true` is
one the Python loop completes identically. -/
def searchLoop (fetch : Nat → SearchResponse) (maxPages : Option Nat) :
    Nat → Nat → PaginationResult
  | _, 0 => ⟨[], [], false⟩
  | page, fuel + 1 =>
    if atCap maxPages page then ⟨[], [], true⟩
    else
      let resp := fetch page
      if resp.people = [] then ⟨[page], [], true⟩
      else if stopByTotal resp.total_pages page then ⟨[page], resp.people, true⟩
      else
        let rest := searchLoop fetch maxPages (page + 1) fuel
        ⟨page :: rest.requested, resp.people ++ rest.yielded, rest.finished⟩

/-- The `search_people` generator: build the payload from the filters and
run the pagination loop from page 1.  `transport` maps a payload and page
number to the parsed response of the `POST /people/search` request. -/
def search_people (transport : Payload → Nat → SearchResponse)
    (job_titles company_names : Option (List Str)) (country : Option Str)
    (maxPages : Option Nat) (fuel : Nat) : PaginationResult :=
  searchLoop (transport (payload_base job_titles company_names country))
    maxPages 1 fuel

/-! The transport retry loop `ApolloClient._request` of `api.py`. -/

/-- One HTTP response: status code, optional `Retry-After` header (already
converted to a number, as `float(retry_after)` does) and the parsed JSON
body (`none` when the body is not valid JSON).  `α` is the type of parsed
bodies. -/
structure HttpResponse (α : Type) where
  status : Nat
  retryAfter : Option ℚ
  body : Option α

/-- The outcome of one `session.request` call: either a raised
`requests.RequestException` or a response. -/
inductive TransportOutcome (α : Type) where
  | exn
  | resp (r : HttpResponse α)

/-- The observable behaviour of one `_request` call: its result, the
sequence of back-off sleeps performed, and the attempt numbers at which the
transport was invoked, in order. -/
structure RequestTrace (α : Type) where
  result : Except ApolloFailure α
  sleeps : List ℚ
  attempts : List Nat

/-- The retry loop body of `_request`, entered with the current attempt
number (the Python counter after `attempt += 1`).  `transport n` is the
outcome of the `n`-th `session.request` call. -/
def requestLoop {α : Type} (transport : Nat → TransportOutcome α)
    (maxRetries : Nat) (backoff : ℚ) (attempt : Nat) : RequestTrace α :=
  match transport attempt with
  | .exn => ⟨.error .transport, [], [attempt]⟩
  | .resp r =>
    if r.status = 429 then
      if h : attempt > maxRetries then ⟨.error .rateLimit, [], [attempt]⟩
      else
        let delay : ℚ :=
          match r.retryAfter with
          | some d => d
          | none => backoff * 2 ^ (attempt - 1)
        let rest := requestLoop transport maxRetries backoff (attempt + 1)
        ⟨rest.result, delay :: rest.sleeps, attempt :: rest.attempts⟩
    else if r.status ≥ 400 then ⟨.error (.apiError r.status), [], [attempt]⟩
    else
      match r.body with
      | some b => ⟨.ok b, [], [attempt]⟩
      | none => ⟨.error .nonJson, [], [attempt]⟩
termination_by maxRetries + 1 - attempt
decreasing_by omega

/-- The `_request` method of `api.py`: run the retry loop starting at
attempt 1. -/
def _request {α : Type} (transport : Nat → TransportOutcome α)
    (maxRetries : Nat) (backoff : ℚ) : RequestTrace α :=
  requestLoop transport maxRetries backoff 1

deriving instance DecidableEq for Except

/-! Behavioural lemmas about the transport retry loop. -/

/-- When the transport answers 429 at every remaining attempt, the retry loop
fails with the rate-limit error, sleeps once per remaining retry, and issues
exactly the remaining attempts. -/
lemma requestLoop_allRateLimited {α : Type} (transport : Nat → TransportOutcome α)
    (maxRetries : Nat) (backoff : ℚ) :
    ∀ (k attempt : Nat), attempt + k = maxRetries + 1 →
      (∀ n, attempt ≤ n → n ≤ maxRetries + 1 →
        ∃ r, transport n = .resp r ∧ r.status = 429) →
      (requestLoop transport maxRetries backoff attempt).result = .error .rateLimit ∧
      (requestLoop transport maxRetries backoff attempt).sleeps.length = k ∧
      (requestLoop transport maxRetries backoff attempt).attempts =
        List.range' attempt (k + 1) := by
  intro k
  induction k with
  | zero =>
    intro attempt hsum h429
    obtain ⟨r, htr, hst⟩ := h429 attempt (le_refl _) (by omega)
    have hgt : attempt > maxRetries := by omega
    rw [requestLoop, htr]
    simp [hst, hgt, List.range']
  | succ k ih =>
    intro attempt hsum h429
    obtain ⟨r, htr, hst⟩ := h429 attempt (le_refl _) (by omega)
    have hle : ¬ attempt > maxRetries := by omega
    obtain ⟨ihres, ihsl, ihat⟩ :=
      ih (attempt + 1) (by omega) (fun n hn1 hn2 => h429 n (by omega) hn2)
    rw [requestLoop, htr]
    simp only [hst, if_pos rfl, dif_neg hle]
    refine ⟨ihres, ?_, ?_⟩
    · simp [ihsl]
    · rw [List.range'_succ]
      simp [ihat]

/-- C2: a transport returning HTTP 429 on every attempt makes `_request`
perform exactly `max_retries` retry sleeps and raise the rate-limit error on
the `(max_retries + 1)`-th attempt, issuing exactly the attempts
`1, …, max_retries + 1` and no more. -/
theorem rate_limit_retries_exhausted {α : Type} (transport : Nat → TransportOutcome α)
    (maxRetries : Nat) (backoff : ℚ)
    (h429 : ∀ n, 1 ≤ n → n ≤ maxRetries + 1 →
      ∃ r, transport n = .resp r ∧ r.status = 429) :
    (_request transport maxRetries backoff).result = .error .rateLimit ∧
    (_request transport maxRetries backoff).sleeps.length = maxRetries ∧
    (_request transport maxRetries backoff).attempts =
      List.range' 1 (maxRetries + 1) := by
  unfold _request
  exact requestLoop_allRateLimited transport maxRetries backoff maxRetries 1 (by omega) h429

/-- Witness for C2: a transport that always answers 429, with 2 retries
configured: the request errors out after attempts 1, 2, 3 and 2 sleeps. -/
theorem rate_limit_retries_exhausted_witness :
    (@_request Unit (fun _ => .resp ⟨429, none, none⟩) 2 (3 / 2)).result =
        .error .rateLimit ∧
    (@_request Unit (fun _ => .resp ⟨429, none, none⟩) 2 (3 / 2)).sleeps.length = 2 ∧
    (@_request Unit (fun _ => .resp ⟨429, none, none⟩) 2 (3 / 2)).attempts =
      List.range' 1 3 :=
  rate_limit_retries_exhausted (fun _ => .resp ⟨429, none, none⟩) 2 (3 / 2)
    (fun n _ _ => ⟨⟨429, none, none⟩, rfl, rfl⟩)

/-! Behavioural lemmas about the paginator. -/

/-- C3: a page whose record list is empty stops the paginator immediately:
that page is the last one requested and nothing is yielded, even though the
`total_pages` hint says more pages remain and the page cap is not reached. -/
theorem empty_page_stops (fetch : Nat → SearchResponse) (maxPages : Option Nat)
    (page fuel tp : Nat)
    (hcap : atCap maxPages page = false)
    (hempty : (fetch page).people = [])
    (htp : (fetch page).total_pages = some tp)
    (hmore : page < tp) :
    searchLoop fetch maxPages page (fuel + 1) = ⟨[page], [], true⟩ := by
  simp [searchLoop, hcap, hempty]

/-- Witness for C3: an empty page 1 with `total_pages = 5` and no cap stops
the paginator at once. -/
theorem empty_page_stops_witness :
    searchLoop (fun _ => ⟨[], some 5⟩) none 1 1 = ⟨[1], [], true⟩ :=
  empty_page_stops (fun _ => ⟨[], some 5⟩) none 1 0 5 rfl rfl rfl (by omega)

/-- One unfolding of the pagination loop in the continue case. -/
lemma searchLoop_continue (fetch : Nat → SearchResponse) (maxPages : Option Nat)
    (page fuel : Nat) (hcap : atCap maxPages page = false)
    (hppl : (fetch page).people ≠ [])
    (hstop : stopByTotal (fetch page).total_pages page = false) :
    searchLoop fetch maxPages page (fuel + 1) =
      ⟨page :: (searchLoop fetch maxPages (page + 1) fuel).requested,
       (fetch page).people ++ (searchLoop fetch maxPages (page + 1) fuel).yielded,
       (searchLoop fetch maxPages (page + 1) fuel).finished⟩ := by
  simp [searchLoop, hcap, hppl, hstop]

/-- A non-empty page at or past the `total_pages` hint is yielded and then
the paginator stops. -/
lemma searchLoop_total_pages_stop (fetch : Nat → SearchResponse)
    (maxPages : Option Nat) (page fuel tp : Nat)
    (hcap : atCap maxPages page = false)
    (hppl : (fetch page).people ≠ [])
    (htp : (fetch page).total_pages = some tp)
    (hge : page ≥ tp) :
    searchLoop fetch maxPages page (fuel + 1) = ⟨[page], (fetch page).people, true⟩ := by
  have hstop : stopByTotal (fetch page).total_pages page = true := by
    rw [htp]
    simpa [stopByTotal] using hge
  simp [searchLoop, hcap, hppl, hstop]

/-- C4: when a page response carries a `total_pages` hint and the current
page number has reached it, the paginator stops right after yielding that
page; in particular a provider reporting `total_pages = 2` with non-empty
pages is asked for exactly pages 1 and 2 although `max_pages` is unset. -/
theorem total_pages_bounds_pagination :
    (∀ (fetch : Nat → SearchResponse) (maxPages : Option Nat) (page fuel tp : Nat),
      atCap maxPages page = false →
      (fetch page).people ≠ [] →
      (fetch page).total_pages = some tp →
      page ≥ tp →
      searchLoop fetch maxPages page (fuel + 1) = ⟨[page], (fetch page).people, true⟩)
    ∧ (∀ (transport : Payload → Nat → SearchResponse)
        (job_titles company_names : Option (List Str)) (country : Option Str)
        (fuel : Nat),
        (∀ p, (transport (payload_base job_titles company_names country) p).total_pages
            = some 2) →
        (∀ p, (transport (payload_base job_titles company_names country) p).people ≠ []) →
        2 ≤ fuel →
        (search_people transport job_titles company_names country none fuel).requested
          = [1, 2]) := by
  constructor
  · exact searchLoop_total_pages_stop
  · intro transport job_titles company_names country fuel htp hppl hfuel
    obtain ⟨f, rfl⟩ : ∃ f, fuel = f + 2 := ⟨fuel - 2, by omega⟩
    unfold search_people
    have h2 := searchLoop_total_pages_stop
      (transport (payload_base job_titles company_names country)) none 2 f 2 rfl
      (hppl 2) (htp 2) (by omega)
    have hstop1 : stopByTotal
        (transport (payload_base job_titles company_names country) 1).total_pages 1
        = false := by
      rw [htp 1]
      simp [stopByTotal]
    have hne1 := hppl 1
    show (searchLoop (transport (payload_base job_titles company_names country))
      none 1 (f + 1 + 1)).requested = [1, 2]
    rw [searchLoop_continue _ none 1 (f + 1) rfl hne1 hstop1]
    simp [h2]

/-- Witness for C4: both parts at a two-page provider with one record per
page and no page cap. -/
theorem total_pages_bounds_pagination_witness :
    searchLoop (fun _ => ⟨[⟨none, none, none, none, none, none, none⟩], some 2⟩)
        none 2 1 =
      ⟨[2], [⟨none, none, none, none, none, none, none⟩], true⟩ ∧
    (search_people (fun _ _ => ⟨[⟨none, none, none, none, none, none, none⟩], some 2⟩)
        none none none none 2).requested = [1, 2] := by
  constructor
  · exact total_pages_bounds_pagination.1
      (fun _ => ⟨[⟨none, none, none, none, none, none, none⟩], some 2⟩)
      none 2 0 2 rfl (by decide) rfl (by omega)
  · exact total_pages_bounds_pagination.2
      (fun _ _ => ⟨[⟨none, none, none, none, none, none, none⟩], some 2⟩)
      none none none 2 (fun _ => rfl) (fun _ => List.cons_ne_nil _ _) (by omega)

/-- The records yielded by the pagination loop are exactly the concatenation
of the `people` arrays of the requested pages, in order. -/
lemma searchLoop_yielded_eq (fetch : Nat → SearchResponse) (maxPages : Option Nat) :
    ∀ (fuel page : Nat),
      (searchLoop fetch maxPages page fuel).yielded =
        ((searchLoop fetch maxPages page fuel).requested.map
          fun p => (fetch p).people).flatten := by
  intro fuel
  induction fuel with
  | zero => intro page; rfl
  | succ fuel ih =>
    intro page
    by_cases hcap : atCap maxPages page
    · simp [searchLoop, hcap]
    · by_cases hempty : (fetch page).people = []
      · simp [searchLoop, hcap, hempty]
      · by_cases hstop : stopByTotal (fetch page).total_pages page
        · simp [searchLoop, hcap, hempty, hstop]
        · simp [searchLoop, hcap, hempty, hstop, ih]

/-- Every page the loop requests lies between the starting page and the
configured cap. -/
lemma searchLoop_requested_le (fetch : Nat → SearchResponse) (m : Nat) :
    ∀ (fuel page : Nat),
      ∀ q ∈ (searchLoop fetch (some m) page fuel).requested, page ≤ q ∧ q ≤ m := by
  intro fuel
  induction fuel with
  | zero => intro page q hq; simp [searchLoop] at hq
  | succ fuel ih =>
    intro page q hq
    by_cases hcap : atCap (some m) page
    · simp [searchLoop, hcap] at hq
    · have hpm : page ≤ m := by
        simp [atCap] at hcap
        omega
      by_cases hempty : (fetch page).people = []
      · simp [searchLoop, hcap, hempty] at hq
        omega
      · by_cases hstop : stopByTotal (fetch page).total_pages page
        · simp [searchLoop, hcap, hempty, hstop] at hq
          omega
        · simp [searchLoop, hcap, hempty, hstop] at hq
          rcases hq with rfl | hq
          · exact ⟨le_refl _, hpm⟩
          · have hrec := ih (page + 1) q hq
            omega

/-- C5: for a filter set with at least one non-empty job-title or company
list and a country, `search_people` yields exactly the concatenation of each
fetched page's records in provider order, and never requests a page beyond
`max_pages` when that cap is set. -/
theorem search_people_yields_concatenation (transport : Payload → Nat → SearchResponse)
    (job_titles company_names : Option (List Str)) (country : Option Str)
    (maxPages : Option Nat) (fuel : Nat)
    (hfilters : _to_list job_titles ≠ [] ∨ _to_list company_names ≠ [])
    (hcountry : country ≠ none) :
    (search_people transport job_titles company_names country maxPages fuel).yielded =
      ((search_people transport job_titles company_names country maxPages fuel).requested.map
        fun p => (transport (payload_base job_titles company_names country) p).people).flatten
    ∧ ∀ m, maxPages = some m →
        ∀ q ∈ (search_people transport job_titles company_names country maxPages
          fuel).requested, q ≤ m := by
  constructor
  · exact searchLoop_yielded_eq _ _ fuel 1
  · intro m hm q hq
    subst hm
    exact (searchLoop_requested_le _ m fuel 1 q hq).2

/-- Witness for C5: one job title, one company and a country, a two-page
provider and a cap of 7 pages. -/
theorem search_people_yields_concatenation_witness :
    (search_people (fun _ page => if page ≤ 2 then ⟨[⟨none, none, none, none, none,
        none, none⟩], none⟩ else ⟨[], none⟩)
      (some ["ceo".data]) (some ["acme".data]) (some "France".data) (some 7) 9).yielded =
      ((search_people (fun _ page => if page ≤ 2 then ⟨[⟨none, none, none, none, none,
          none, none⟩], none⟩ else ⟨[], none⟩)
        (some ["ceo".data]) (some ["acme".data]) (some "France".data) (some 7) 9).requested.map
        fun p => ((fun _ page => if page ≤ 2 then ⟨[⟨none, none, none, none, none,
          none, none⟩], none⟩ else (⟨[], none⟩ : SearchResponse))
            (payload_base (some ["ceo".data]) (some ["acme".data]) (some "France".data)) p).people).flatten
    ∧ ∀ m, (some 7 : Option Nat) = some m →
        ∀ q ∈ (search_people (fun _ page => if page ≤ 2 then ⟨[⟨none, none, none, none,
          none, none, none⟩], none⟩ else ⟨[], none⟩)
          (some ["ceo".data]) (some ["acme".data]) (some "France".data) (some 7) 9).requested,
          q ≤ m :=
  search_people_yields_concatenation _ _ _ _ _ _ (Or.inl (by decide)) (by decide)

/-! Behavioural lemmas about the dedup gather loop. -/

/-- The central invariant of `_gather_people_records`: provided every
already-collected record's normalised email is in `seen` and the collected
normalised emails are distinct, a successful run keeps the normalised emails
of the result distinct, only appends records whose normalised email was not
in `seen`, records every new normalised email in the returned newly-seen
set, and the newly-seen set only grows by normalised emails of result
records. -/
lemma gatherGo_spec (mc : Option Nat) (err : Option ApolloFailure) :
    ∀ (people : List Person) (seen newly : Finset Str) (results res : List Record)
      (nout : Finset Str),
      gatherGo mc err people seen newly results = .ok (res, nout) →
      (∀ r ∈ results, normEmail r.email ∈ seen) →
      (results.map fun r => normEmail r.email).Nodup →
      ((res.map fun r => normEmail r.email).Nodup
        ∧ (∀ r ∈ results, r ∈ res)
        ∧ (∀ r ∈ res, r ∈ results ∨
            (normEmail r.email ∉ seen ∧ normEmail r.email ∈ nout ∧
             normEmail r.email ≠ [] ∧
             ∃ p ∈ people, rawEmail p = some r.email ∧ r = makeRecord p r.email))
        ∧ (∀ e ∈ newly, e ∈ nout)
        ∧ (∀ e ∈ nout, e ∈ newly ∨ ∃ r ∈ res, normEmail r.email = e)) := by
  intro people
  induction people with
  | nil =>
    intro seen newly results res nout hok hseen hnodup
    cases err with
    | some e => simp [gatherGo] at hok
    | none =>
      simp only [gatherGo, Except.ok.injEq, Prod.mk.injEq] at hok
      obtain ⟨h1, h2⟩ := hok
      subst h1
      subst h2
      exact ⟨hnodup, fun r hr => hr, fun r hr => Or.inl hr,
        fun e he => he, fun e he => Or.inl he⟩
  | cons p rest ih =>
    intro seen newly results res nout hok hseen hnodup
    have skip : gatherGo mc err rest seen newly results = .ok (res, nout) →
        ((res.map fun r => normEmail r.email).Nodup
          ∧ (∀ r ∈ results, r ∈ res)
          ∧ (∀ r ∈ res, r ∈ results ∨
              (normEmail r.email ∉ seen ∧ normEmail r.email ∈ nout ∧
               normEmail r.email ≠ [] ∧
               ∃ q ∈ p :: rest, rawEmail q = some r.email ∧ r = makeRecord q r.email))
          ∧ (∀ e ∈ newly, e ∈ nout)
          ∧ (∀ e ∈ nout, e ∈ newly ∨ ∃ r ∈ res, normEmail r.email = e)) := by
      intro hok'
      obtain ⟨c1, c2, c3, c4, c5⟩ := ih seen newly results res nout hok' hseen hnodup
      refine ⟨c1, c2, fun r hr => ?_, c4, c5⟩
      rcases c3 r hr with h | ⟨ha, hb, hc, q, hq, hd⟩
      · exact Or.inl h
      · exact Or.inr ⟨ha, hb, hc, q, List.mem_cons_of_mem p hq, hd⟩
    cases hre : rawEmail p with
    | none =>
      rw [gatherGo] at hok
      simp only [hre] at hok
      exact skip hok
    | some email =>
      rw [gatherGo] at hok
      simp only [hre] at hok
      by_cases hemail : email = []
      · rw [if_pos hemail] at hok
        exact skip hok
      · rw [if_neg hemail] at hok
        by_cases hcond : normEmail email = [] ∨ normEmail email ∈ seen
        · rw [if_pos hcond] at hok
          exact skip hok
        · rw [if_neg hcond] at hok
          push_neg at hcond
          obtain ⟨hne_nonempty, hne_notseen⟩ := hcond
          have hnodup' : ((results ++ [makeRecord p email]).map
              fun r => normEmail r.email).Nodup := by
            rw [List.map_append]
            rw [List.nodup_append]
            refine ⟨hnodup, List.nodup_singleton _, ?_⟩
            intro x hx hx'
            simp only [List.map_cons, List.map_nil, List.mem_singleton] at hx'
            rw [List.mem_map] at hx
            obtain ⟨r, hr, hrx⟩ := hx
            apply hne_notseen
            have : normEmail (makeRecord p email).email = normEmail email := rfl
            rw [hx', this] at hrx
            exact hrx ▸ hseen r hr
          by_cases hmax : atMax mc (results ++ [makeRecord p email]).length
          · rw [if_pos hmax] at hok
            simp only [Except.ok.injEq, Prod.mk.injEq] at hok
            obtain ⟨h1, h2⟩ := hok
            subst h1
            subst h2
            refine ⟨hnodup', fun r hr => List.mem_append_left _ hr, ?_, ?_, ?_⟩
            · intro r hr
              rcases List.mem_append.mp hr with h | h
              · exact Or.inl h
              · simp only [List.mem_singleton] at h
                subst h
                refine Or.inr ⟨hne_notseen, Finset.mem_insert_self _ _,
                  hne_nonempty, p, List.mem_cons_self p rest, hre, rfl⟩
            · intro e he
              exact Finset.mem_insert_of_mem he
            · intro e he
              rcases Finset.mem_insert.mp he with h | h
              · exact Or.inr ⟨makeRecord p email,
                  List.mem_append_right _ (List.mem_singleton_self _), h.symm⟩
              · exact Or.inl h
          · rw [if_neg hmax] at hok
            have hseen' : ∀ r ∈ results ++ [makeRecord p email],
                normEmail r.email ∈ insert (normEmail email) seen := by
              intro r hr
              rcases List.mem_append.mp hr with h | h
              · exact Finset.mem_insert_of_mem (hseen r h)
              · simp only [List.mem_singleton] at h
                subst h
                exact Finset.mem_insert_self _ _
            obtain ⟨c1, c2, c3, c4, c5⟩ := ih (insert (normEmail email) seen)
              (insert (normEmail email) newly) (results ++ [makeRecord p email])
              res nout hok hseen' hnodup'
            have hnew_mem : makeRecord p email ∈ res :=
              c2 _ (List.mem_append_right _ (List.mem_singleton_self _))
            refine ⟨c1, fun r hr => c2 r (List.mem_append_left _ hr), ?_, ?_, ?_⟩
            · intro r hr
              rcases c3 r hr with h | ⟨ha, hb, hc, q, hq, hd⟩
              · rcases List.mem_append.mp h with h' | h'
                · exact Or.inl h'
                · simp only [List.mem_singleton] at h'
                  subst h'
                  refine Or.inr ⟨hne_notseen, ?_, hne_nonempty, p,
                    List.mem_cons_self p rest, hre, rfl⟩
                  exact c4 _ (Finset.mem_insert_self _ _)
              · refine Or.inr ⟨fun hmem => ha (Finset.mem_insert_of_mem hmem),
                  hb, hc, q, List.mem_cons_of_mem p hq, hd⟩
            · intro e he
              exact c4 e (Finset.mem_insert_of_mem he)
            · intro e he
              rcases c5 e he with h | h
              · rcases Finset.mem_insert.mp h with h' | h'
                · exact Or.inr ⟨makeRecord p email, hnew_mem, h'.symm⟩
                · exact Or.inl h'
              · exact Or.inr h

/-- A loaded-seen-set member survives the re-normalisation performed at the
start of `_gather_people_records`. -/
lemma loaded_mem_image {A : Finset Str} {e : Str} (he : e ∈ A) (hne : e ≠ [])
    (hfix : normEmail e = e) :
    e ∈ (A.filter (fun x => x ≠ [])).image normEmail :=
  Finset.mem_image.mpr ⟨e, Finset.mem_filter.mpr ⟨he, hne⟩, hfix⟩

/-- C1 (amended): in a single run no email appears twice in the exported
record list and no record whose normalised email is in the loaded seen set
is exported; and when a second run loads exactly the first run's persisted
output, no email exported by the first run is exported again — provided
(amendment) the normalised exported emails contain none of the
line-boundary characters of the persistence format (newline, carriage
return, vertical tab, form feed, the file/group/record separators, next
line, and the Unicode line and paragraph separators). -/
theorem dedup_invariant_and_cross_run (c₁ : Option Str) (people₁ : List Person)
    (err₁ : Option ApolloFailure) (mc₁ : Option Nat) (res₁ : List Record)
    (n₁ : Finset Str)
    (hrun₁ : _gather_people_records people₁ err₁ mc₁ (_load_seen_emails c₁)
      = .ok (res₁, n₁)) :
    ((res₁.map Record.email).Nodup
      ∧ ∀ r ∈ res₁, normEmail r.email ∉ _load_seen_emails c₁)
    ∧ ∀ (people₂ : List Person) (err₂ : Option ApolloFailure) (mc₂ : Option Nat)
        (res₂ : List Record) (n₂ : Finset Str),
        (∀ r ∈ res₁, ∀ ch ∈ normEmail r.email, isPyLineBoundary ch = false) →
        _gather_people_records people₂ err₂ mc₂
          (_load_seen_emails (some (_save_seen_emails (_load_seen_emails c₁ ∪ n₁))))
          = .ok (res₂, n₂) →
        ∀ r₁ ∈ res₁, ∀ r₂ ∈ res₂,
          normEmail r₂.email ≠ normEmail r₁.email ∧ r₂.email ≠ r₁.email := by
  unfold _gather_people_records at hrun₁
  obtain ⟨c1, -, c3, -, c5⟩ := gatherGo_spec mc₁ err₁ people₁ _ _ _ res₁ n₁ hrun₁
    (by simp) (by simp)
  have hA : ∀ r ∈ res₁, normEmail r.email ∉ _load_seen_emails c₁
      ∧ normEmail r.email ∈ n₁ ∧ normEmail r.email ≠ [] := by
    intro r hr
    rcases c3 r hr with h | ⟨hns, hnn, hne, -⟩
    · simp at h
    · refine ⟨?_, hnn, hne⟩
      intro hmem
      obtain ⟨h1, h2, -⟩ := load_entries hmem
      exact hns (loaded_mem_image hmem h1 h2)
  refine ⟨⟨?_, fun r hr => (hA r hr).1⟩, ?_⟩
  · have hmm : ((res₁.map Record.email).map normEmail).Nodup := by
      rw [List.map_map]
      exact c1
    exact List.Nodup.of_map normEmail hmm
  · intro people₂ err₂ mc₂ res₂ n₂ hnl hrun₂ r₁ h₁ r₂ h₂
    have hcomb : ∀ e ∈ _load_seen_emails c₁ ∪ n₁,
        e ≠ [] ∧ normEmail e = e ∧ ∀ ch ∈ e, isPyLineBoundary ch = false := by
      intro e he
      rcases Finset.mem_union.mp he with h | h
      · exact load_entries h
      · rcases c5 e h with h' | ⟨r, hr, hrfl⟩
        · simp at h'
        · subst hrfl
          exact ⟨(hA r hr).2.2, normEmail_idem _, hnl r hr⟩
    rw [load_save hcomb] at hrun₂
    unfold _gather_people_records at hrun₂
    obtain ⟨-, -, c3₂, -, -⟩ := gatherGo_spec mc₂ err₂ people₂ _ _ _ res₂ n₂ hrun₂
      (by simp) (by simp)
    have hnorm : normEmail r₂.email ≠ normEmail r₁.email := by
      intro heq
      rcases c3₂ r₂ h₂ with h | ⟨hns₂, -, -, -⟩
      · simp at h
      · apply hns₂
        have hmem₁ : normEmail r₁.email ∈ _load_seen_emails c₁ ∪ n₁ :=
          Finset.mem_union_right _ (hA r₁ h₁).2.1
        have hres := loaded_mem_image hmem₁ (hA r₁ h₁).2.2 (normEmail_idem _)
        rw [heq]
        exact hres
    exact ⟨hnorm, fun heq => hnorm (by rw [heq])⟩

/-- The provider record used in the C1 counterexample: its email contains a
newline, which the line-oriented persistence format cannot represent. -/
def nlPerson : Person := ⟨some ['a', '\n', 'b'], none, none, none, none, none, none⟩

/-- A provider record whose email contains a carriage return: `read_text`
turns it into a newline on reload, so it cannot be represented either. -/
def crPerson : Person := ⟨some ['a', '\r', 'b'], none, none, none, none, none, none⟩

/-- C1 counterexample: a first run from an empty seen file exports the email
`"a\nb"`; a second run whose seen file is exactly the first run's persisted
output (the union of the loaded set and the first run's newly-seen set,
saved and loaded back) exports the very same email again, because the
newline inside the email splits it into two different lines on disk.  The
same happens for the email `"a\rb"`, which contains no newline at all: the
universal-newline translation of `read_text` turns its carriage return
into a newline before `splitlines` runs. -/
theorem dedup_cross_run_counterexample :
    (_gather_people_records [nlPerson] none none (_load_seen_emails none)
      = .ok ([makeRecord nlPerson ['a', '\n', 'b']], {['a', '\n', 'b']})
    ∧ _gather_people_records [nlPerson] none none
        (_load_seen_emails (some (_save_seen_emails
          (_load_seen_emails none ∪ {['a', '\n', 'b']}))))
      = .ok ([makeRecord nlPerson ['a', '\n', 'b']], {['a', '\n', 'b']})
    ∧ (makeRecord nlPerson ['a', '\n', 'b']).email = ['a', '\n', 'b'])
    ∧ (_gather_people_records [crPerson] none none (_load_seen_emails none)
      = .ok ([makeRecord crPerson ['a', '\r', 'b']], {['a', '\r', 'b']})
    ∧ _gather_people_records [crPerson] none none
        (_load_seen_emails (some (_save_seen_emails
          (_load_seen_emails none ∪ {['a', '\r', 'b']}))))
      = .ok ([makeRecord crPerson ['a', '\r', 'b']], {['a', '\r', 'b']})
    ∧ (makeRecord crPerson ['a', '\r', 'b']).email = ['a', '\r', 'b']
    ∧ '\n' ∉ normEmail ['a', '\r', 'b']) := by
  exact ⟨⟨by decide, by decide, rfl⟩, by decide, by decide, rfl, by decide⟩

/-- A well-behaved provider record used by several witnesses. -/
def okPerson : Person := ⟨some "x@y.z".data, none, none, none, none, none, none⟩

/-- Witness for C1: one record exported from an empty seen file; its email
is unique, misses the loaded set, and a second run over the persisted output
exports nothing. -/
theorem dedup_invariant_and_cross_run_witness :
    (([makeRecord okPerson ("x@y.z".data)].map Record.email).Nodup
      ∧ ∀ r ∈ [makeRecord okPerson ("x@y.z".data)],
          normEmail r.email ∉ _load_seen_emails none)
    ∧ ∀ r₁ ∈ [makeRecord okPerson ("x@y.z".data)], ∀ r₂ ∈ ([] : List Record),
        normEmail r₂.email ≠ normEmail r₁.email ∧ r₂.email ≠ r₁.email := by
  have h := dedup_invariant_and_cross_run none [okPerson] none none
    [makeRecord okPerson ("x@y.z".data)] {"x@y.z".data} (by decide)
  exact ⟨h.1, h.2 [okPerson] none none [] ∅ (by decide) (by decide)⟩

/-- The persisted layout of a well-formed non-empty set: non-empty, sorted,
duplicate-free lines that enumerate exactly the set, joined by newlines with
one trailing newline. -/
lemma save_spec {S : Finset Str} (hne : S.Nonempty)
    (h : ∀ e ∈ S, e ≠ [] ∧ normEmail e = e ∧ ∀ ch ∈ e, isPyLineBoundary ch = false) :
    pySplitlines (_save_seen_emails S) ≠ []
    ∧ List.Sorted strLe (pySplitlines (_save_seen_emails S))
    ∧ (pySplitlines (_save_seen_emails S)).Nodup
    ∧ (pySplitlines (_save_seen_emails S)).toFinset = S
    ∧ _save_seen_emails S =
        List.intercalate ['\n'] (pySplitlines (_save_seen_emails S)) ++ ['\n'] := by
  have hlines : (pySorted ((S.val.filter (fun e => e ≠ [])).map normEmail)
      : Multiset Str) = S.val := save_lines_eq fun e he => ⟨(h e he).1, (h e he).2.1⟩
  have hnonempty : pySorted ((S.val.filter (fun e => e ≠ [])).map normEmail) ≠ [] := by
    intro hnil
    rcases hne with ⟨x, hx⟩
    have hx' : x ∈ (pySorted ((S.val.filter (fun e => e ≠ [])).map normEmail)
        : Multiset Str) := by
      rw [hlines]
      exact hx
    rw [hnil] at hx'
    simp at hx'
  have hmemL : ∀ e, e ∈ pySorted ((S.val.filter (fun e => e ≠ [])).map normEmail)
      ↔ e ∈ S := by
    intro e
    rw [← Multiset.mem_coe, hlines]
    exact Iff.rfl
  have hsplit : pySplitlines (_save_seen_emails S) =
      pySorted ((S.val.filter (fun e => e ≠ [])).map normEmail) := by
    unfold _save_seen_emails
    simp only [if_neg hnonempty]
    exact pySplitlines_roundtrip _ hnonempty
      (fun l hl => (h l ((hmemL l).mp hl)).2.2)
  refine ⟨by rw [hsplit]; exact hnonempty, by rw [hsplit]; exact pySorted_sorted _,
    ?_, ?_, ?_⟩
  · rw [hsplit]
    have hnd := S.nodup
    rw [← hlines] at hnd
    exact Multiset.coe_nodup.mp hnd
  · rw [hsplit]
    apply Finset.ext
    intro e
    rw [List.mem_toFinset]
    exact hmemL e
  · rw [hsplit]
    unfold _save_seen_emails
    simp only [if_neg hnonempty]

/-- C6 (amended): `main` writes the seen file if and only if the run found at
least one newly seen email (not merely when the union of old and new seen
emails — the seen set after the run — is non-empty), and what it writes is
the sorted, lower-cased, trimmed, duplicate-free set of emails, one per line
with a trailing newline (the one-per-line layout read for emails free of
line-boundary characters, which no line of the persistence format can
represent). -/
theorem seen_persist_spec (c : Option Str) (people : List Person)
    (err : Option ApolloFailure) (mc : Option Nat) (records : List Record)
    (newly : Finset Str)
    (hok : _gather_people_records people err mc (_load_seen_emails c)
      = .ok (records, newly)) :
    ((mainRun c people err mc).seenWritten =
      if newly ≠ ∅ then some (_save_seen_emails (_load_seen_emails c ∪ newly))
      else none)
    ∧ ∀ S : Finset Str, S.Nonempty →
        (∀ e ∈ S, e ≠ [] ∧ normEmail e = e ∧ ∀ ch ∈ e, isPyLineBoundary ch = false) →
        pySplitlines (_save_seen_emails S) ≠ []
        ∧ List.Sorted strLe (pySplitlines (_save_seen_emails S))
        ∧ (pySplitlines (_save_seen_emails S)).Nodup
        ∧ (pySplitlines (_save_seen_emails S)).toFinset = S
        ∧ _save_seen_emails S =
            List.intercalate ['\n'] (pySplitlines (_save_seen_emails S)) ++ ['\n'] := by
  constructor
  · simp [mainRun, hok]
  · intro S hS h
    exact save_spec hS h

/-- C6 counterexample: with a non-empty loaded seen set and a run that finds
nothing new, the seen set after the run is non-empty and yet the seen file
is not written, refuting the claimed `if and only if`. -/
theorem seen_persist_counterexample :
    (mainRun (some ("a@x.com".data ++ ['\n'])) [] none none).seenWritten = none
    ∧ (_load_seen_emails (some ("a@x.com".data ++ ['\n'])) ∪ (∅ : Finset Str)).Nonempty
    ∧ _gather_people_records [] none none
        (_load_seen_emails (some ("a@x.com".data ++ ['\n']))) = .ok ([], ∅) := by
  exact ⟨by decide, by decide, by decide⟩

/-- Witness for C6: a run that finds one new email writes the persisted
union of old and new seen emails. -/
theorem seen_persist_spec_witness :
    (mainRun none [okPerson] none none).seenWritten =
      (if ({"x@y.z".data} : Finset Str) ≠ ∅ then
        some (_save_seen_emails (_load_seen_emails none ∪ {"x@y.z".data}))
      else none) :=
  (seen_persist_spec none [okPerson] none none
    [makeRecord okPerson ("x@y.z".data)] {"x@y.z".data} (by decide)).1

/-- C7 (amended): persisting and re-loading is the identity on every
non-empty set of non-empty, already-trimmed, already-lower-cased emails
none of whose characters is a line boundary (newline, carriage return,
vertical tab, form feed, the file/group/record separators, next line, or
the Unicode line and paragraph separators). -/
theorem persist_load_roundtrip (S : Finset Str) (hne : S.Nonempty)
    (h : ∀ e ∈ S, e ≠ [] ∧ pyStrip e = e ∧ pyLower e = e ∧
      ∀ ch ∈ e, isPyLineBoundary ch = false) :
    _load_seen_emails (some (_save_seen_emails S)) = S :=
  load_save fun e he =>
    ⟨(h e he).1, by
      show normEmail e = e
      unfold normEmail
      rw [(h e he).2.1, (h e he).2.2.1], (h e he).2.2.2⟩

/-- C7 counterexample: the empty string, a newline-carrying string and a
carriage-return-carrying string are all already trimmed and lower-cased,
yet none of their singleton sets survives the persist-then-load round trip
(the last of them also shows that only excluding the newline character is
not enough: `read_text` turns its carriage return into a newline before
`splitlines` runs). -/
theorem persist_load_roundtrip_counterexample :
    pyStrip ([] : Str) = [] ∧ pyLower ([] : Str) = []
    ∧ (({[]} : Finset Str)).Nonempty
    ∧ _load_seen_emails (some (_save_seen_emails {[]})) ≠ ({[]} : Finset Str)
    ∧ pyStrip ['a', '\n', 'b'] = ['a', '\n', 'b']
    ∧ pyLower ['a', '\n', 'b'] = ['a', '\n', 'b']
    ∧ _load_seen_emails (some (_save_seen_emails {['a', '\n', 'b']}))
        ≠ ({['a', '\n', 'b']} : Finset Str)
    ∧ pyStrip ['a', '\r', 'b'] = ['a', '\r', 'b']
    ∧ pyLower ['a', '\r', 'b'] = ['a', '\r', 'b']
    ∧ '\n' ∉ (['a', '\r', 'b'] : Str)
    ∧ _load_seen_emails (some (_save_seen_emails {['a', '\r', 'b']}))
        = ({['a'], ['b']} : Finset Str)
    ∧ _load_seen_emails (some (_save_seen_emails {['a', '\r', 'b']}))
        ≠ ({['a', '\r', 'b']} : Finset Str) := by
  exact ⟨rfl, rfl, ⟨[], Finset.mem_singleton_self _⟩, by decide, by decide,
    by decide, by decide, by decide, by decide, by decide, by decide, by decide⟩

/-- Witness for C7: the singleton set of a normal email survives the round
trip. -/
theorem persist_load_roundtrip_witness :
    _load_seen_emails (some (_save_seen_emails {"a@x.com".data}))
      = ({"a@x.com".data} : Finset Str) :=
  persist_load_roundtrip _ ⟨_, Finset.mem_singleton_self _⟩ (by decide)

/-- C8: the extracted name equals the trimmed first and last names joined by
a single space and trimmed again, so a missing last name yields just the
trimmed first name and a missing first name just the trimmed last name. -/
theorem compose_name_spec (p : Person) :
    _compose_name p =
      pyStrip (pyStrip (p.first_name.getD []) ++ ' ' :: pyStrip (p.last_name.getD []))
    ∧ (∀ e, (makeRecord p e).name = _compose_name p)
    ∧ (p.last_name = none → _compose_name p = pyStrip (p.first_name.getD []))
    ∧ (p.first_name = none → _compose_name p = pyStrip (p.last_name.getD [])) := by
  refine ⟨rfl, fun e => rfl, ?_, ?_⟩
  · intro h
    unfold _compose_name
    rw [h]
    show pyStrip (pyStrip (p.first_name.getD []) ++ [' ']) = _
    rw [pyStrip_append_space _ ' ' (by decide), pyStrip_idem]
  · intro h
    unfold _compose_name
    rw [h]
    show pyStrip (' ' :: pyStrip (p.last_name.getD [])) = _
    rw [pyStrip_cons_space _ ' ' (by decide), pyStrip_idem]

/-- The record used by the C8 witness. -/
def adaPerson : Person := ⟨none, none, some (' ' :: "Ada ".data), none, none, none, none⟩

/-- Witness for C8: a record with first name `" Ada "` and no last name
yields the name `"Ada"`. -/
theorem compose_name_spec_witness :
    _compose_name adaPerson = "Ada".data := by
  have h := (compose_name_spec adaPerson).2.2.1 rfl
  rw [h]
  decide

/-- With no contact cap, a pending transport failure always reaches the
gather loop and aborts it. -/
lemma gatherGo_error_when_unbounded (e : ApolloFailure) :
    ∀ (people : List Person) (seen newly : Finset Str) (results : List Record),
      gatherGo none (some e) people seen newly results = .error e := by
  intro people
  induction people with
  | nil => intro seen newly results; rfl
  | cons p rest ih =>
    intro seen newly results
    rw [gatherGo]
    cases hre : rawEmail p with
    | none =>
      simp only []
      exact ih _ _ _
    | some email =>
      simp only []
      by_cases hemail : email = []
      · rw [if_pos hemail]
        exact ih _ _ _
      · rw [if_neg hemail]
        by_cases hcond : normEmail email = [] ∨ normEmail email ∈ seen
        · rw [if_pos hcond]
          exact ih _ _ _
        · rw [if_neg hcond]
          rw [if_neg (by simp [atMax])]
          exact ih _ _ _

/-- C9: when gathering aborts with an `ApolloError` (re-raised as
`SystemExit`), `main` writes neither the output CSV nor the seen-emails
file; with no contact cap, a pending transport failure always aborts the
run this way. -/
theorem api_failure_writes_nothing (c : Option Str) (people : List Person)
    (err : Option ApolloFailure) (mc : Option Nat) :
    (∀ e, _gather_people_records people err mc (_load_seen_emails c) = .error e →
      mainRun c people err mc = ⟨true, none, none⟩)
    ∧ (∀ e, err = some e → mc = none →
        mainRun c people err mc = ⟨true, none, none⟩) := by
  constructor
  · intro e herr
    simp [mainRun, herr]
  · intro e herr hmc
    subst herr
    subst hmc
    have h := gatherGo_error_when_unbounded e people
      (((_load_seen_emails c).filter (fun x => x ≠ [])).image normEmail) ∅ []
    simp [mainRun, _gather_people_records, h]

/-- Witness for C9: a failure before the first record aborts the run with
nothing written. -/
theorem api_failure_writes_nothing_witness :
    mainRun none [] (some .rateLimit) none = ⟨true, none, none⟩ :=
  (api_failure_writes_nothing none [] (some .rateLimit) none).2 .rateLimit rfl rfl

/-- The record used in the C10 concrete part: a raw email with mixed case
and leading whitespace. -/
def mixedPerson : Person :=
  ⟨some (' ' :: "A@X.com".data), none, none, none, none, none, none⟩

/-- C10: the email column written to the CSV is the raw provider email
string verbatim (one of the provider's two email fields, unmodified), while
dedup and the persisted seen set use the trimmed lower-cased form, so an
exported email can differ textually from its seen-file entry. -/
theorem email_verbatim (c : Option Str) (people : List Person)
    (err : Option ApolloFailure) (mc : Option Nat) (records : List Record)
    (newly : Finset Str)
    (hok : _gather_people_records people err mc (_load_seen_emails c)
      = .ok (records, newly)) :
    ((mainRun c people err mc).csvWritten = some (csvHeader :: records.map csvRow))
    ∧ (∀ r ∈ records, (csvRow r)[2]? = some r.email
        ∧ ∃ p ∈ people, rawEmail p = some r.email ∧ normEmail r.email ∈ newly)
    ∧ (∀ p e, rawEmail p = some e → p.email = some e ∨ p.primary_email = some e)
    ∧ (_gather_people_records [mixedPerson] none none (_load_seen_emails none)
        = .ok ([makeRecord mixedPerson (' ' :: "A@X.com".data)], {"a@x.com".data})
      ∧ (makeRecord mixedPerson (' ' :: "A@X.com".data)).email = ' ' :: "A@X.com".data
      ∧ _save_seen_emails {"a@x.com".data} = "a@x.com".data ++ ['\n']
      ∧ (' ' :: "A@X.com".data) ≠ "a@x.com".data) := by
  refine ⟨?_, ?_, ?_, by decide, rfl, by decide, by decide⟩
  · simp [mainRun, hok, _write_csv]
  · intro r hr
    unfold _gather_people_records at hok
    obtain ⟨-, -, c3, -, -⟩ := gatherGo_spec mc err people _ _ _ records newly hok
      (by simp) (by simp)
    rcases c3 r hr with h | ⟨-, hnn, -, p, hp, hreq, -⟩
    · simp at h
    · exact ⟨rfl, p, hp, hreq, hnn⟩
  · intro p e hre
    unfold rawEmail pyOr at hre
    cases hpe : p.email with
    | none =>
      simp only [hpe] at hre
      exact Or.inr hre
    | some s =>
      simp only [hpe] at hre
      by_cases hs : s = []
      · rw [if_pos hs] at hre
        exact Or.inr hre
      · rw [if_neg hs] at hre
        exact Or.inl (hpe ▸ hre)

/-- Witness for C10: the CSV written for the mixed-case run carries the raw
email in its data row. -/
theorem email_verbatim_witness :
    (mainRun none [mixedPerson] none none).csvWritten =
      some (csvHeader :: [makeRecord mixedPerson (' ' :: "A@X.com".data)].map csvRow) :=
  (email_verbatim none [mixedPerson] none none
    [makeRecord mixedPerson (' ' :: "A@X.com".data)] {"a@x.com".data} (by decide)).1

end ApolloGatherer
